import Mathlib

/-!
Shallow embedding of `medical_translation_errors.py`
(class `MedicalTranslationErrorInjector`).

Strings are modelled as `List Char`; Python floats in `[0, 1)` are modelled
as rationals; the shared `random` generator is modelled as an abstract
state-passing structure `RandGen` whose operations mirror the primitives
the source consumes (`random.random()`, `_randbelow` as used by
`random.choice` and `random.shuffle`).
-/

set_option autoImplicit false

namespace MedTrans

/-- Python `\w` on ASCII input: letters, digits and underscore. -/
def isWordChar (c : Char) : Bool := c.isAlphanum || c = '_'

/-- Embeds `re.sub(r'[^\w\s]', '', word).lower()` from
`_apply_random_error`: drop characters that are neither word characters nor
whitespace, then lowercase. -/
def cleanWord (w : List Char) : List Char :=
  (w.filter (fun c => isWordChar c || c.isWhitespace)).map Char.toLower

/-- Python `str.capitalize()`: first character uppercased, the rest
lowercased. -/
def capitalize (w : List Char) : List Char :=
  match w with
  | [] => []
  | c :: cs => Char.toUpper c :: cs.map Char.toLower

/-- Python `word[0].isupper()` (tokens are never empty, so the empty case is
arbitrary). -/
def isUpperFirst (w : List Char) : Bool :=
  match w with
  | [] => false
  | c :: _ => c.isUpper

/-- Python `''.join(c for c in word if not c.isalnum())`: all
non-alphanumeric characters of the token, in order. -/
def allPunc (w : List Char) : List Char :=
  w.filter (fun c => !c.isAlphanum)

/-- The trailing non-alphanumeric suffix of a token.  This is the notion the
spec uses ("trailing punctuation"); the source's `allPunc` collects every
non-alphanumeric character instead. -/
def trailingPunc (w : List Char) : List Char :=
  (w.reverse.takeWhile (fun c => !c.isAlphanum)).reverse

/-- True when the list contains no whitespace character. -/
def noWs (w : List Char) : Bool :=
  w.all (fun c => !c.isWhitespace)

/-- Python `str.split()` with no argument: split on runs of whitespace,
dropping empty pieces and leading/trailing whitespace. -/
def splitWs (s : List Char) : List (List Char) :=
  match s with
  | [] => []
  | c :: cs =>
    if c.isWhitespace then splitWs cs
    else
      (c :: cs.takeWhile (fun d => !d.isWhitespace)) ::
        splitWs (cs.dropWhile (fun d => !d.isWhitespace))
termination_by s.length
decreasing_by
  · simp only [List.length_cons]; omega
  · simp only [List.length_cons]
    have := (List.dropWhile_suffix (l := cs) (fun d => !d.isWhitespace)).length_le
    omega

/-- Python `' '.join(words)`. -/
def joinWords : List (List Char) → List Char
  | [] => []
  | [w] => w
  | w :: x :: ws => w ++ ' ' :: joinWords (x :: ws)

/-- Abstract model of the shared `random` generator: a state type together
with the two primitives the source consumes.  `randFloat` models
`random.random()` (a value in `[0, 1)`); `randBelow` models `_randbelow`,
the uniform-below-`n` primitive behind `random.choice` and
`random.shuffle`. -/
structure RandGen where
  G : Type
  seedFn : Int → G
  randFloat : G → Rat × G
  randBelow : G → Nat → Nat × G
  float_nonneg : ∀ g, 0 ≤ (randFloat g).1
  float_lt_one : ∀ g, (randFloat g).1 < 1
  below_lt : ∀ g n, 0 < n → (randBelow g n).1 < n

/-- A concrete scripted generator used to evaluate the model on concrete
inputs: the state is a list of naturals consumed one per primitive call. -/
def scriptGen : RandGen where
  G := List Nat
  seedFn := fun _ => []
  randFloat := fun g =>
    match g with
    | [] => (0, [])
    | k :: rest => (mkRat (min k 999 : Nat) 1000, rest)
  randBelow := fun g n =>
    match g with
    | [] => (0, [])
    | k :: rest => (k % n, rest)
  float_nonneg := by
    intro g
    match g with
    | [] => simp
    | k :: rest =>
      simp only
      rw [Rat.mkRat_eq_div]
      positivity
  float_lt_one := by
    intro g
    match g with
    | [] => simp
    | k :: rest =>
      simp only
      rw [Rat.mkRat_eq_div, div_lt_one (by norm_num)]
      have h : (min k 999 : Nat) ≤ 999 := Nat.min_le_right _ _
      calc ((min k 999 : Nat) : Rat) ≤ (999 : Nat) := by exact_mod_cast h
        _ < 1000 := by norm_num
  below_lt := by
    intro g n hn
    match g with
    | [] => simpa using hn
    | k :: rest =>
      simpa using Nat.mod_lt _ hn

/-- Association-list lookup, modelling Python `dict` key lookup
(`clean_word in table` / `table[clean_word]`). -/
def alookup {α : Type} (l : List (List Char × α)) (k : List Char) : Option α :=
  match l with
  | [] => none
  | (k', v) :: rest => if k' = k then some v else alookup rest k

/-- The four error kinds of the source (`error_type` strings). -/
inductive ErrType where
  | medical_substitution
  | number_substitution
  | qualifier_omission
  | temporal_confusion
deriving DecidableEq, Repr

/-- The dictionary returned by the `_try_*` helpers: `original`,
`new_word`, `error_type`. -/
structure ErrInfo where
  original : List Char
  new_word : List Char
  error_type : ErrType
deriving DecidableEq, Repr

/-- One entry of the `errors_introduced` list built by `inject_errors`. -/
structure ErrRecord where
  position : Nat
  original : List Char
  modified : List Char
  error_type : ErrType
deriving DecidableEq, Repr

/-- The injector state set up by `__init__`: the error probability and the
four rule tables. -/
structure Injector where
  error_probability : Rat
  medical_substitutions : List (List Char × List (List Char))
  number_substitutions : List (List Char × List Char)
  omittable_qualifiers : List (List Char)
  temporal_confusions : List (List Char × List Char)

/-- The `medical_substitutions` table from `__init__`. -/
def medicalTable : List (List Char × List (List Char)) :=
  [ ("hypertension".toList, ["hypotension".toList, "hyperextension".toList]),
    ("hypotension".toList, ["hypertension".toList]),
    ("infection".toList, ["inflammation".toList, "infusion".toList]),
    ("inflammation".toList, ["infection".toList]),
    ("prescription".toList, ["proscription".toList, "description".toList]),
    ("dose".toList, ["does".toList, "dosage".toList]),
    ("tablet".toList, ["capsule".toList]),
    ("capsule".toList, ["tablet".toList]),
    ("chronic".toList, ["acute".toList]),
    ("acute".toList, ["chronic".toList]),
    ("malignant".toList, ["benign".toList]),
    ("benign".toList, ["malignant".toList]),
    ("symptom".toList, ["syndrome".toList]),
    ("diagnosis".toList, ["prognosis".toList]),
    ("prognosis".toList, ["diagnosis".toList]),
    ("allergy".toList, ["allergic".toList]),
    ("breathe".toList, ["breath".toList]),
    ("breath".toList, ["breathe".toList]),
    ("ingest".toList, ["inject".toList]),
    ("inject".toList, ["ingest".toList]),
    ("oral".toList, ["aural".toList]),
    ("bacteria".toList, ["virus".toList]),
    ("virus".toList, ["bacteria".toList]) ]

/-- The `number_substitutions` table from `__init__`. -/
def numberTable : List (List Char × List Char) :=
  [ ("fifteen".toList, "fifty".toList),
    ("fifty".toList, "fifteen".toList),
    ("thirteen".toList, "thirty".toList),
    ("thirty".toList, "thirteen".toList),
    ("fourteen".toList, "forty".toList),
    ("forty".toList, "fourteen".toList),
    ("15".toList, "50".toList),
    ("50".toList, "15".toList),
    ("13".toList, "30".toList),
    ("30".toList, "13".toList),
    ("14".toList, "40".toList),
    ("40".toList, "14".toList) ]

/-- The `omittable_qualifiers` list from `__init__`. -/
def qualifierList : List (List Char) :=
  [ "not".toList, "no".toList, "without".toList, "never".toList,
    "rarely".toList, "sometimes".toList, "often".toList, "always".toList,
    "very".toList, "slightly".toList, "mildly".toList, "severely".toList ]

/-- The `temporal_confusions` table from `__init__`. -/
def temporalTable : List (List Char × List Char) :=
  [ ("before".toList, "after".toList),
    ("after".toList, "before".toList),
    ("morning".toList, "evening".toList),
    ("evening".toList, "morning".toList),
    ("daily".toList, "weekly".toList),
    ("weekly".toList, "daily".toList),
    ("increase".toList, "decrease".toList),
    ("decrease".toList, "increase".toList),
    ("start".toList, "stop".toList),
    ("stop".toList, "start".toList),
    ("continue".toList, "discontinue".toList),
    ("discontinue".toList, "continue".toList) ]

/-- `MedicalTranslationErrorInjector(error_probability=p)`: the injector
with the default rule tables. -/
def defaultInjector (p : Rat) : Injector :=
  { error_probability := p,
    medical_substitutions := medicalTable,
    number_substitutions := numberTable,
    omittable_qualifiers := qualifierList,
    temporal_confusions := temporalTable }

variable (gen : RandGen) (inj : Injector)

/-- `_try_medical_substitution`: on a table hit, pick one candidate with
`random.choice`, reapply leading capitalization, append the token's
non-alphanumeric characters. -/
def tryMedicalSubstitution (w clean : List Char) (g : gen.G) :
    Option ErrInfo × gen.G :=
  match alookup inj.medical_substitutions clean with
  | none => (none, g)
  | some substitutes =>
    let jg := gen.randBelow g substitutes.length
    let cand := substitutes.getD jg.1 []
    let cap := if isUpperFirst w then capitalize cand else cand
    let punc := allPunc w
    let new := if punc.isEmpty then cap else cap ++ punc
    (some ⟨w, new, ErrType.medical_substitution⟩, jg.2)

/-- `_try_number_substitution`: deterministic replacement, punctuation
reapplied, no case handling. -/
def tryNumberSubstitution (w clean : List Char) (g : gen.G) :
    Option ErrInfo × gen.G :=
  match alookup inj.number_substitutions clean with
  | none => (none, g)
  | some repl =>
    let punc := allPunc w
    let new := if punc.isEmpty then repl else repl ++ punc
    (some ⟨w, new, ErrType.number_substitution⟩, g)

/-- `_try_qualifier_omission`: on a table hit, draw a fresh sample and omit
the token (empty replacement) only when it is below `0.3`. -/
def tryQualifierOmission (w clean : List Char) (g : gen.G) :
    Option ErrInfo × gen.G :=
  if clean ∈ inj.omittable_qualifiers then
    let rg := gen.randFloat g
    if rg.1 < mkRat 3 10 then
      (some ⟨w, [], ErrType.qualifier_omission⟩, rg.2)
    else
      (none, rg.2)
  else
    (none, g)

/-- `_try_temporal_confusion`: deterministic replacement with
capitalization and punctuation reapplied. -/
def tryTemporalConfusion (w clean : List Char) (g : gen.G) :
    Option ErrInfo × gen.G :=
  match alookup inj.temporal_confusions clean with
  | none => (none, g)
  | some repl =>
    let cap := if isUpperFirst w then capitalize repl else repl
    let punc := allPunc w
    let new := if punc.isEmpty then cap else cap ++ punc
    (some ⟨w, new, ErrType.temporal_confusion⟩, g)

/-- The four strategy functions collected in `error_types`. -/
inductive Strategy where
  | medical
  | number
  | qualifier
  | temporal
deriving DecidableEq, Repr

/-- Dispatch a strategy to its `_try_*` function. -/
def runStrategy (s : Strategy) (w clean : List Char) (g : gen.G) :
    Option ErrInfo × gen.G :=
  match s with
  | Strategy.medical => tryMedicalSubstitution gen inj w clean g
  | Strategy.number => tryNumberSubstitution gen inj w clean g
  | Strategy.qualifier => tryQualifierOmission gen inj w clean g
  | Strategy.temporal => tryTemporalConfusion gen inj w clean g

/-- The `error_types` list in its source order. -/
def strategyList : List Strategy :=
  [Strategy.medical, Strategy.number, Strategy.qualifier, Strategy.temporal]

/-- Swap the entries at indices `i` and `j` (both in range whenever used). -/
def swapL {α : Type} (l : List α) (i j : Nat) (d : α) : List α :=
  (l.set i (l.getD j d)).set j (l.getD i d)

/-- Fisher-Yates steps of `random.shuffle`: for `i` from `n` down to `1`,
draw `j` below `i + 1` and swap positions `i` and `j`. -/
def fyAux {α : Type} (d : α) : Nat → List α → gen.G → List α × gen.G
  | 0, l, g => (l, g)
  | i + 1, l, g =>
    let jg := gen.randBelow g (i + 2)
    fyAux d i (swapL l (i + 1) jg.1 d) jg.2

/-- `random.shuffle(l)`. -/
def shuffleList {α : Type} (d : α) (l : List α) (g : gen.G) :
    List α × gen.G :=
  fyAux gen d (l.length - 1) l g

/-- The `for error_func in error_types` loop of `_apply_random_error`: run
the strategies in order, returning the first produced error. -/
def firstTry : List Strategy → List Char → List Char → gen.G →
    Option ErrInfo × gen.G
  | [], _, _, g => (none, g)
  | s :: ss, w, clean, g =>
    match runStrategy gen inj s w clean g with
    | (some e, g1) => (some e, g1)
    | (none, g1) => firstTry ss w clean g1

/-- `_apply_random_error`: clean the word, shuffle the strategy list, try
the strategies in the shuffled order. -/
def applyRandomError (w : List Char) (g : gen.G) : Option ErrInfo × gen.G :=
  let clean := cleanWord w
  let og := shuffleList gen Strategy.medical (strategyList) g
  firstTry gen inj og.1 w clean og.2

/-- The `for i, word in enumerate(words)` loop of `inject_errors`,
accumulating the modified words and the error records from index `i` on. -/
def injectLoop : Nat → List (List Char) → gen.G →
    List (List Char) × List ErrRecord × gen.G
  | _, [], g => ([], [], g)
  | i, w :: ws, g =>
    let rg := gen.randFloat g
    if rg.1 < inj.error_probability then
      match applyRandomError gen inj w rg.2 with
      | (some e, g2) =>
        let rest := injectLoop (i + 1) ws g2
        (e.new_word :: rest.1,
          ⟨i, e.original, e.new_word, e.error_type⟩ :: rest.2.1, rest.2.2)
      | (none, g2) =>
        let rest := injectLoop (i + 1) ws g2
        (w :: rest.1, rest.2.1, rest.2.2)
    else
      let rest := injectLoop (i + 1) ws rg.2
      (w :: rest.1, rest.2.1, rest.2.2)

/-- `inject_errors(text, seed)`: optionally reseed, split on whitespace,
run the per-word loop, rejoin with single spaces. -/
def injectErrors (text : List Char) (seed : Option Int) (g : gen.G) :
    List Char × List ErrRecord × gen.G :=
  let g0 := match seed with
    | some s => gen.seedFn s
    | none => g
  let res := injectLoop gen inj 0 (splitWs text) g0
  (joinWords res.1, res.2.1, res.2.2)

/-- One turn of a conversation: a speaker label and a text. -/
structure Turn where
  speaker : List Char
  text : List Char
deriving DecidableEq, Repr

/-- An error record augmented with `turn_index`, as built by
`inject_errors_in_conversation`. -/
structure ConvRecord where
  position : Nat
  original : List Char
  modified : List Char
  error_type : ErrType
  turn_index : Nat
deriving DecidableEq, Repr

/-- The `for turn_idx, turn in enumerate(conversation)` loop: inject into
each turn's text with no per-turn seed, copy the speaker, tag records with
the turn index. -/
def convLoop : Nat → List Turn → gen.G →
    List Turn × List ConvRecord × gen.G
  | _, [], g => ([], [], g)
  | i, t :: ts, g =>
    let res := injectErrors gen inj t.text none g
    let rest := convLoop (i + 1) ts res.2.2
    (⟨t.speaker, res.1⟩ :: rest.1,
      (res.2.1.map fun r =>
        ⟨r.position, r.original, r.modified, r.error_type, i⟩) ++ rest.2.1,
      rest.2.2)

/-- `inject_errors_in_conversation(conversation, seed)`. -/
def injectConversation (turns : List Turn) (seed : Option Int) (g : gen.G) :
    List Turn × List ConvRecord × gen.G :=
  let g0 := match seed with
    | some s => gen.seedFn s
    | none => g
  convLoop gen inj 0 turns g0

/-- The pool a substitution's replacement word is drawn from, per error
type: the matched entry's candidate list for medical substitutions, the
matched entry's single value for number/temporal substitutions. -/
def replCandidates (ty : ErrType) (clean : List Char) : List (List Char) :=
  match ty with
  | ErrType.medical_substitution =>
    (alookup inj.medical_substitutions clean).getD []
  | ErrType.number_substitution =>
    (alookup inj.number_substitutions clean).toList
  | ErrType.qualifier_omission => []
  | ErrType.temporal_confusion =>
    (alookup inj.temporal_confusions clean).toList

/-- The membership test each strategy performs on its own table
(`clean_word in self....`). -/
def tableHas (s : Strategy) (clean : List Char) : Bool :=
  match s with
  | Strategy.medical => (alookup inj.medical_substitutions clean).isSome
  | Strategy.number => (alookup inj.number_substitutions clean).isSome
  | Strategy.qualifier => decide (clean ∈ inj.omittable_qualifiers)
  | Strategy.temporal => (alookup inj.temporal_confusions clean).isSome

/-- `noneThrough w clean L g g'` holds when running the strategies of `L`
in order from state `g` produces no error at every step and ends in state
`g'`. -/
def noneThrough (w clean : List Char) : List Strategy → gen.G → gen.G → Prop
  | [], g, g' => g' = g
  | s :: ss, g, g' =>
    ∃ g1, runStrategy gen inj s w clean g = (none, g1) ∧
      noneThrough w clean ss g1 g'

/-! ### General helper lemmas -/

lemma alookup_mem {α : Type} {l : List (List Char × α)} {k : List Char}
    {v : α} : alookup l k = some v → (k, v) ∈ l := by
  intro h
  induction l with
  | nil => simp [alookup] at h
  | cons kv rest ih =>
    obtain ⟨k', v'⟩ := kv
    by_cases hk : k' = k
    · subst hk
      simp [alookup] at h
      simp [h]
    · simp [alookup, hk] at h
      exact List.mem_cons_of_mem _ (ih h)

lemma takeWhile_all_append {p : Char → Bool} {u v : List Char} {y : Char}
    (hu : ∀ x ∈ u, p x = true) (hy : p y = false) :
    (u ++ y :: v).takeWhile p = u := by
  induction u with
  | nil => simp [List.takeWhile_cons, hy]
  | cons a as ih =>
    simp only [List.cons_append, List.takeWhile_cons, hu a (by simp)]
    simp [ih (fun x hx => hu x (by simp [hx]))]

lemma dropWhile_all_append {p : Char → Bool} {u v : List Char} {y : Char}
    (hu : ∀ x ∈ u, p x = true) (hy : p y = false) :
    (u ++ y :: v).dropWhile p = y :: v := by
  induction u with
  | nil => simp [List.dropWhile_cons, hy]
  | cons a as ih =>
    simp only [List.cons_append, List.dropWhile_cons, hu a (by simp)]
    simp [ih (fun x hx => hu x (by simp [hx]))]

lemma takeWhile_all {p : Char → Bool} {u : List Char}
    (hu : ∀ x ∈ u, p x = true) : u.takeWhile p = u := by
  induction u with
  | nil => simp
  | cons a as ih =>
    simp only [List.takeWhile_cons, hu a (by simp)]
    simp [ih (fun x hx => hu x (by simp [hx]))]

lemma dropWhile_all {p : Char → Bool} {u : List Char}
    (hu : ∀ x ∈ u, p x = true) : u.dropWhile p = [] := by
  induction u with
  | nil => simp
  | cons a as ih =>
    simp only [List.dropWhile_cons, hu a (by simp)]
    simp [ih (fun x hx => hu x (by simp [hx]))]

lemma splitWs_sound (s : List Char) :
    ∀ w ∈ splitWs s, w ≠ [] ∧ noWs w = true := by
  induction s using splitWs.induct with
  | case1 => simp [splitWs]
  | case2 c cs hws ih =>
    rw [splitWs, if_pos hws]
    exact ih
  | case3 c cs hws ih =>
    rw [splitWs, if_neg hws]
    intro w hw
    rw [List.mem_cons] at hw
    rcases hw with hw | hw
    · subst hw
      refine ⟨by simp, ?_⟩
      simp only [noWs, List.all_cons, Bool.and_eq_true]
      simp only [Bool.not_eq_true] at hws
      refine ⟨by simp [hws], ?_⟩
      simp only [List.all_eq_true]
      intro x hx
      have := List.mem_takeWhile_imp hx
      simpa using this
    · exact ih w hw

lemma noWs_append {u v : List Char} :
    noWs (u ++ v) = (noWs u && noWs v) := by
  simp [noWs, List.all_append]

lemma isUpperFirst_append {u v : List Char} (hu : u ≠ []) :
    isUpperFirst (u ++ v) = isUpperFirst u := by
  cases u with
  | nil => simp at hu
  | cons c cs => simp [isUpperFirst]

lemma allPunc_noWs {w : List Char} (hw : noWs w = true) :
    noWs (allPunc w) = true := by
  simp only [noWs, List.all_eq_true] at hw ⊢
  intro x hx
  exact hw x (List.mem_of_mem_filter hx)

lemma splitWs_nil_of_noWs {w : List Char} (hw : noWs w = true) :
    splitWs w = if w.isEmpty then [] else [w] := by
  cases w with
  | nil => simp [splitWs]
  | cons c cs =>
    simp only [noWs, List.all_cons, Bool.and_eq_true, Bool.not_eq_true'] at hw
    rw [splitWs, if_neg (by simp [hw.1])]
    have hcs : ∀ x ∈ cs, (!x.isWhitespace) = true := by
      intro x hx
      have := (List.all_eq_true).1 hw.2 x hx
      simpa using this
    rw [takeWhile_all hcs, dropWhile_all hcs]
    simp [splitWs]

lemma splitWs_sep {w t : List Char} (hw : noWs w = true) :
    splitWs (w ++ ' ' :: t) =
      (if w.isEmpty then [] else [w]) ++ splitWs t := by
  cases w with
  | nil =>
    simp only [List.nil_append, List.isEmpty_nil, if_true]
    rw [splitWs, if_pos (by simp)]
  | cons c cs =>
    simp only [noWs, List.all_cons, Bool.and_eq_true, Bool.not_eq_true'] at hw
    rw [List.cons_append, splitWs, if_neg (by simp [hw.1])]
    have hcs : ∀ x ∈ cs, (!x.isWhitespace) = true := by
      intro x hx
      have := (List.all_eq_true).1 hw.2 x hx
      simpa using this
    rw [takeWhile_all_append hcs (by simp), dropWhile_all_append hcs (by simp)]
    rw [splitWs, if_pos (by simp)]
    simp

lemma splitWs_joinWords {l : List (List Char)}
    (hl : ∀ w ∈ l, noWs w = true) :
    splitWs (joinWords l) = l.filter (fun w => !w.isEmpty) := by
  induction l with
  | nil => simp [joinWords, splitWs]
  | cons w rest ih =>
    cases rest with
    | nil =>
      rw [joinWords, splitWs_nil_of_noWs (hl w (by simp))]
      cases hemp : w.isEmpty <;> simp [hemp]
    | cons x ws =>
      rw [joinWords, splitWs_sep (hl w (by simp)),
        ih (fun u hu => hl u (by simp [hu]))]
      cases hemp : w.isEmpty
      · simp [List.filter_cons, hemp]
      · simp [List.filter_cons, hemp]

/-! ### Facts about the default rule tables -/

lemma capitalize_ne_nil {w : List Char} (hw : w ≠ []) : capitalize w ≠ [] := by
  cases w with
  | nil => simp at hw
  | cons c cs => simp [capitalize]

lemma medicalTable_vals :
    ∀ kv ∈ medicalTable, kv.2 ≠ [] ∧
      ∀ c ∈ kv.2, c ≠ [] ∧ noWs c = true ∧ noWs (capitalize c) = true ∧
        isUpperFirst (capitalize c) = true := by decide

lemma numberTable_vals :
    ∀ kv ∈ numberTable, kv.2 ≠ [] ∧ noWs kv.2 = true ∧
      noWs (capitalize kv.2) = true := by decide

lemma temporalTable_vals :
    ∀ kv ∈ temporalTable, kv.2 ≠ [] ∧ noWs kv.2 = true ∧
      noWs (capitalize kv.2) = true ∧
      isUpperFirst (capitalize kv.2) = true := by decide

lemma medicalTable_no_empty_key : alookup medicalTable [] = none := by decide

lemma numberTable_no_empty_key : alookup numberTable [] = none := by decide

lemma temporalTable_no_empty_key : alookup temporalTable [] = none := by decide

lemma qualifierList_no_empty_key : ([] : List Char) ∉ qualifierList := by decide

/-! ### Per-strategy lemmas -/

lemma runStrategy_original {s : Strategy} {w clean : List Char} {g g' : gen.G}
    {e : ErrInfo} (h : runStrategy gen inj s w clean g = (some e, g')) :
    e.original = w := by
  cases s with
  | medical =>
    cases halk : alookup inj.medical_substitutions clean with
    | none => simp [runStrategy, tryMedicalSubstitution, halk] at h
    | some subs =>
      simp only [runStrategy, tryMedicalSubstitution, halk] at h
      obtain ⟨he, -⟩ := Prod.mk.injEq .. ▸ h
      cases he
      rfl
  | number =>
    cases halk : alookup inj.number_substitutions clean with
    | none => simp [runStrategy, tryNumberSubstitution, halk] at h
    | some repl =>
      simp only [runStrategy, tryNumberSubstitution, halk] at h
      obtain ⟨he, -⟩ := Prod.mk.injEq .. ▸ h
      cases he
      rfl
  | qualifier =>
    simp only [runStrategy, tryQualifierOmission] at h
    by_cases hmem : clean ∈ inj.omittable_qualifiers
    · rw [if_pos hmem] at h
      by_cases hroll : (gen.randFloat g).1 < mkRat 3 10
      · rw [if_pos hroll] at h
        obtain ⟨he, -⟩ := Prod.mk.injEq .. ▸ h
        cases he
        rfl
      · rw [if_neg hroll] at h
        simp at h
    · rw [if_neg hmem] at h
      simp at h
  | temporal =>
    cases halk : alookup inj.temporal_confusions clean with
    | none => simp [runStrategy, tryTemporalConfusion, halk] at h
    | some repl =>
      simp only [runStrategy, tryTemporalConfusion, halk] at h
      obtain ⟨he, -⟩ := Prod.mk.injEq .. ▸ h
      cases he
      rfl

lemma if_punc_append (x l : List Char) :
    (if l.isEmpty then x else x ++ l) = x ++ l := by
  cases l with
  | nil => simp
  | cons c cs => simp

lemma runStrategy_default_spec {p : Rat} {s : Strategy} {w clean : List Char}
    {g g' : gen.G} {e : ErrInfo}
    (h : runStrategy gen (defaultInjector p) s w clean g = (some e, g')) :
    (e.error_type = ErrType.qualifier_omission ↔ e.new_word = []) ∧
    (e.error_type ≠ ErrType.qualifier_omission →
      ∃ repl, repl ∈ replCandidates (defaultInjector p) e.error_type clean ∧
        repl ≠ [] ∧ noWs repl = true ∧ noWs (capitalize repl) = true ∧
        ((e.error_type = ErrType.medical_substitution ∨
          e.error_type = ErrType.temporal_confusion) →
          isUpperFirst (capitalize repl) = true) ∧
        e.new_word =
          (if e.error_type = ErrType.number_substitution then repl
           else if isUpperFirst w then capitalize repl else repl)
            ++ allPunc w) := by
  cases s with
  | medical =>
    cases halk : alookup medicalTable clean with
    | none => simp [runStrategy, tryMedicalSubstitution, defaultInjector, halk] at h
    | some subs =>
      simp only [runStrategy, tryMedicalSubstitution, defaultInjector, halk] at h
      obtain ⟨he, -⟩ := Prod.mk.injEq .. ▸ h
      cases he
      have hkv := medicalTable_vals _ (alookup_mem halk)
      have hlen : 0 < subs.length := by
        cases subs with
        | nil => exact absurd rfl hkv.1
        | cons a as => simp
      have hj := gen.below_lt g subs.length hlen
      have hcand : subs.getD (gen.randBelow g subs.length).1 [] ∈ subs := by
        rw [List.getD_eq_getElem _ _ hj]
        exact List.getElem_mem hj
      have hc := hkv.2 _ hcand
      have hcap : (if isUpperFirst w then
          capitalize (subs.getD (gen.randBelow g subs.length).1 [])
          else subs.getD (gen.randBelow g subs.length).1 []) ≠ [] := by
        by_cases hup : isUpperFirst w
        · rw [if_pos hup]; exact capitalize_ne_nil hc.1
        · rw [if_neg hup]; exact hc.1
      constructor
      · constructor
        · intro hty; exact ErrType.noConfusion hty
        · intro hnw
          exfalso
          simp only [if_punc_append] at hnw
          exact hcap (List.append_eq_nil.1 hnw).1
      · intro hne
        refine ⟨subs.getD (gen.randBelow g subs.length).1 [], ?_, hc.1, hc.2.1,
          hc.2.2.1, fun _ => hc.2.2.2, ?_⟩
        · simp only [replCandidates, defaultInjector, halk, Option.getD_some]
          exact hcand
        · simp [if_punc_append]
  | number =>
    cases halk : alookup numberTable clean with
    | none => simp [runStrategy, tryNumberSubstitution, defaultInjector, halk] at h
    | some repl =>
      simp only [runStrategy, tryNumberSubstitution, defaultInjector, halk] at h
      obtain ⟨he, -⟩ := Prod.mk.injEq .. ▸ h
      cases he
      have hkv := numberTable_vals _ (alookup_mem halk)
      constructor
      · constructor
        · intro hty; exact ErrType.noConfusion hty
        · intro hnw
          exfalso
          simp only [if_punc_append] at hnw
          exact hkv.1 (List.append_eq_nil.1 hnw).1
      · intro hne
        refine ⟨repl, ?_, hkv.1, hkv.2.1, hkv.2.2, by simp, ?_⟩
        · simp [replCandidates, defaultInjector, halk]
        · simp [if_punc_append]
  | qualifier =>
    simp only [runStrategy, tryQualifierOmission, defaultInjector] at h
    by_cases hmem : clean ∈ qualifierList
    · rw [if_pos hmem] at h
      by_cases hroll : (gen.randFloat g).1 < mkRat 3 10
      · rw [if_pos hroll] at h
        obtain ⟨he, -⟩ := Prod.mk.injEq .. ▸ h
        cases he
        exact ⟨by simp, fun hne => absurd rfl hne⟩
      · rw [if_neg hroll] at h
        simp at h
    · rw [if_neg hmem] at h
      simp at h
  | temporal =>
    cases halk : alookup temporalTable clean with
    | none => simp [runStrategy, tryTemporalConfusion, defaultInjector, halk] at h
    | some repl =>
      simp only [runStrategy, tryTemporalConfusion, defaultInjector, halk] at h
      obtain ⟨he, -⟩ := Prod.mk.injEq .. ▸ h
      cases he
      have hkv := temporalTable_vals _ (alookup_mem halk)
      refine ⟨?_, ?_⟩
      · constructor
        · intro hty
          simp at hty
        · intro hnw
          have hcapne : capitalize repl ≠ [] := capitalize_ne_nil hkv.1
          simp only [if_punc_append] at hnw
          exfalso
          rcases List.append_eq_nil.1 hnw with ⟨h1, -⟩
          by_cases hup : isUpperFirst w
          · rw [if_pos hup] at h1
            exact hcapne h1
          · rw [if_neg hup] at h1
            exact hkv.1 h1
      · intro hne
        refine ⟨repl, ?_, hkv.1, hkv.2.1, hkv.2.2.1, fun _ => hkv.2.2.2, ?_⟩
        · simp [replCandidates, defaultInjector, halk]
        · simp [if_punc_append]

/-! ### Lemmas about the strategy loop -/

lemma firstTry_split {L : List Strategy} {w clean : List Char} {g g' : gen.G}
    {e : ErrInfo} (h : firstTry gen inj L w clean g = (some e, g')) :
    ∃ pre s post g1, L = pre ++ s :: post ∧
      noneThrough gen inj w clean pre g g1 ∧
      runStrategy gen inj s w clean g1 = (some e, g') := by
  induction L generalizing g with
  | nil => simp [firstTry] at h
  | cons s ss ih =>
    rcases hr : runStrategy gen inj s w clean g with ⟨o, g1⟩
    cases o with
    | some e0 =>
      simp only [firstTry] at h
      rw [hr] at h
      obtain ⟨he, hg⟩ := Prod.mk.injEq .. ▸ h
      injection he with he
      subst he
      subst hg
      exact ⟨[], s, ss, g, rfl, rfl, hr⟩
    | none =>
      simp only [firstTry] at h
      rw [hr] at h
      obtain ⟨pre, s', post, g2, hL, hnon, hrun⟩ := ih h
      exact ⟨s :: pre, s', post, g2, by rw [hL, List.cons_append], ⟨g1, hr, hnon⟩, hrun⟩

lemma firstTry_none {L : List Strategy} {w clean : List Char} {g g' : gen.G}
    (h : firstTry gen inj L w clean g = (none, g')) :
    noneThrough gen inj w clean L g g' := by
  induction L generalizing g with
  | nil =>
    simp only [firstTry] at h
    obtain ⟨-, hg⟩ := Prod.mk.injEq .. ▸ h
    exact hg.symm
  | cons s ss ih =>
    rcases hr : runStrategy gen inj s w clean g with ⟨o, g1⟩
    cases o with
    | some e0 =>
      simp only [firstTry] at h
      rw [hr] at h
      obtain ⟨he, -⟩ := Prod.mk.injEq .. ▸ h
      exact absurd he (by simp)
    | none =>
      simp only [firstTry] at h
      rw [hr] at h
      exact ⟨g1, hr, ih h⟩

lemma firstTry_isnone_of_all {L : List Strategy} {w clean : List Char}
    {g : gen.G}
    (hall : ∀ (s : Strategy) (g1 : gen.G),
      (runStrategy gen inj s w clean g1).1 = none) :
    (firstTry gen inj L w clean g).1 = none := by
  induction L generalizing g with
  | nil => simp [firstTry]
  | cons s ss ih =>
    rcases hr : runStrategy gen inj s w clean g with ⟨o, g1⟩
    have := hall s g
    rw [hr] at this
    simp only at this
    subst this
    simp only [firstTry]
    rw [hr]
    exact ih

lemma applyErr_split {w : List Char} {g g' : gen.G} {e : ErrInfo}
    (h : applyRandomError gen inj w g = (some e, g')) :
    ∃ pre s post g1,
      (shuffleList gen Strategy.medical strategyList g).1 = pre ++ s :: post ∧
      noneThrough gen inj w (cleanWord w) pre
        (shuffleList gen Strategy.medical strategyList g).2 g1 ∧
      runStrategy gen inj s w (cleanWord w) g1 = (some e, g') := by
  exact firstTry_split gen inj h

lemma applyErr_none_through {w : List Char} {g g' : gen.G}
    (h : applyRandomError gen inj w g = (none, g')) :
    noneThrough gen inj w (cleanWord w)
      (shuffleList gen Strategy.medical strategyList g).1
      (shuffleList gen Strategy.medical strategyList g).2 g' := by
  exact firstTry_none gen inj h

lemma applyErr_original {w : List Char} {g g' : gen.G} {e : ErrInfo}
    (h : applyRandomError gen inj w g = (some e, g')) : e.original = w := by
  obtain ⟨pre, s, post, g1, -, -, hrun⟩ := applyErr_split gen inj h
  exact runStrategy_original gen inj hrun

lemma applyErr_default_spec {p : Rat} {w : List Char} {g g' : gen.G}
    {e : ErrInfo}
    (h : applyRandomError gen (defaultInjector p) w g = (some e, g')) :
    (e.error_type = ErrType.qualifier_omission ↔ e.new_word = []) ∧
    (e.error_type ≠ ErrType.qualifier_omission →
      ∃ repl, repl ∈ replCandidates (defaultInjector p) e.error_type
          (cleanWord w) ∧
        repl ≠ [] ∧ noWs repl = true ∧ noWs (capitalize repl) = true ∧
        ((e.error_type = ErrType.medical_substitution ∨
          e.error_type = ErrType.temporal_confusion) →
          isUpperFirst (capitalize repl) = true) ∧
        e.new_word =
          (if e.error_type = ErrType.number_substitution then repl
           else if isUpperFirst w then capitalize repl else repl)
            ++ allPunc w) := by
  obtain ⟨pre, s, post, g1, -, -, hrun⟩ := applyErr_split gen (defaultInjector p) h
  exact runStrategy_default_spec gen hrun

lemma applyErr_default_newWord {p : Rat} {w : List Char} {g g' : gen.G}
    {e : ErrInfo} (hw : noWs w = true)
    (h : applyRandomError gen (defaultInjector p) w g = (some e, g')) :
    noWs e.new_word = true ∧
    (e.error_type = ErrType.qualifier_omission ↔ e.new_word = []) := by
  obtain ⟨hiff, hsub⟩ := applyErr_default_spec gen h
  refine ⟨?_, hiff⟩
  by_cases hty : e.error_type = ErrType.qualifier_omission
  · rw [hiff.1 hty]
    rfl
  · obtain ⟨repl, -, -, hnws, hnwc, -, hnew⟩ := hsub hty
    rw [hnew, noWs_append]
    refine Bool.and_eq_true .. ▸ ⟨?_, allPunc_noWs hw⟩
    by_cases hnum : e.error_type = ErrType.number_substitution
    · rw [if_pos hnum]; exact hnws
    · rw [if_neg hnum]
      by_cases hup : isUpperFirst w
      · rw [if_pos hup]; exact hnwc
      · rw [if_neg hup]; exact hnws

/-! ### Lemmas about the per-text injection loop -/

lemma injectLoop_spec (i : Nat) (ws : List (List Char)) (g : gen.G) :
    (injectLoop gen inj i ws g).1.length = ws.length ∧
    (∀ rec ∈ (injectLoop gen inj i ws g).2.1,
      ∃ k, k < ws.length ∧ rec.position = i + k ∧
        ws.getD k [] = rec.original ∧
        (injectLoop gen inj i ws g).1.getD k [] = rec.modified ∧
        ∃ g1 g2, applyRandomError gen inj (ws.getD k []) g1 =
          (some ⟨rec.original, rec.modified, rec.error_type⟩, g2)) ∧
    List.Pairwise (fun a b => a.position < b.position)
      (injectLoop gen inj i ws g).2.1 ∧
    (∀ k, k < ws.length →
      (∀ rec ∈ (injectLoop gen inj i ws g).2.1, rec.position ≠ i + k) →
      (injectLoop gen inj i ws g).1.getD k [] = ws.getD k []) := by
  induction ws generalizing i g with
  | nil =>
    simp [injectLoop]
  | cons w ws ih =>
    by_cases hp : (gen.randFloat g).1 < inj.error_probability
    · rcases hag : applyRandomError gen inj w (gen.randFloat g).2 with ⟨o, g2⟩
      cases o with
      | some e =>
        have hres : injectLoop gen inj i (w :: ws) g =
            (e.new_word :: (injectLoop gen inj (i + 1) ws g2).1,
             ⟨i, e.original, e.new_word, e.error_type⟩ ::
               (injectLoop gen inj (i + 1) ws g2).2.1,
             (injectLoop gen inj (i + 1) ws g2).2.2) := by
          simp only [injectLoop]
          rw [if_pos hp, hag]
        obtain ⟨ihlen, ihrec, ihpair, ihkeep⟩ := ih (i + 1) g2
        have horig : e.original = w := applyErr_original gen inj hag
        rw [hres]
        refine ⟨by simp [ihlen], ?_, ?_, ?_⟩
        · intro rec hrec
          rcases List.mem_cons.1 hrec with hrec | hrec
          · subst hrec
            refine ⟨0, by simp, by simp, by simp [horig], by simp, ?_⟩
            exact ⟨(gen.randFloat g).2, g2, hag⟩
          · obtain ⟨k, hk, hpos, ho, hm, hex⟩ := ihrec rec hrec
            exact ⟨k + 1, by simpa using hk, by omega,
              by simpa using ho, by simpa using hm, by simpa using hex⟩
        · refine List.Pairwise.cons ?_ ihpair
          intro rec hrec
          obtain ⟨k, -, hpos, -, -, -⟩ := ihrec rec hrec
          simp only [hpos]
          omega
        · intro k hk hnone
          cases k with
          | zero =>
            exfalso
            exact hnone _ (List.mem_cons_self _ _) (by simp)
          | succ k =>
            have := ihkeep k (by simpa using hk)
              (fun rec hrec => by
                have := hnone rec (List.mem_cons_of_mem _ hrec)
                omega)
            simpa using this
      | none =>
        have hres : injectLoop gen inj i (w :: ws) g =
            (w :: (injectLoop gen inj (i + 1) ws g2).1,
             (injectLoop gen inj (i + 1) ws g2).2.1,
             (injectLoop gen inj (i + 1) ws g2).2.2) := by
          simp only [injectLoop]
          rw [if_pos hp, hag]
        obtain ⟨ihlen, ihrec, ihpair, ihkeep⟩ := ih (i + 1) g2
        rw [hres]
        refine ⟨by simp [ihlen], ?_, ihpair, ?_⟩
        · intro rec hrec
          obtain ⟨k, hk, hpos, ho, hm, hex⟩ := ihrec rec hrec
          exact ⟨k + 1, by simpa using hk, by omega,
            by simpa using ho, by simpa using hm, by simpa using hex⟩
        · intro k hk hnone
          cases k with
          | zero => simp
          | succ k =>
            have := ihkeep k (by simpa using hk)
              (fun rec hrec => by
                have := hnone rec hrec
                omega)
            simpa using this
    · have hres : injectLoop gen inj i (w :: ws) g =
          (w :: (injectLoop gen inj (i + 1) ws (gen.randFloat g).2).1,
           (injectLoop gen inj (i + 1) ws (gen.randFloat g).2).2.1,
           (injectLoop gen inj (i + 1) ws (gen.randFloat g).2).2.2) := by
        simp only [injectLoop]
        rw [if_neg hp]
      obtain ⟨ihlen, ihrec, ihpair, ihkeep⟩ := ih (i + 1) (gen.randFloat g).2
      rw [hres]
      refine ⟨by simp [ihlen], ?_, ihpair, ?_⟩
      · intro rec hrec
        obtain ⟨k, hk, hpos, ho, hm, hex⟩ := ihrec rec hrec
        exact ⟨k + 1, by simpa using hk, by omega,
          by simpa using ho, by simpa using hm, by simpa using hex⟩
      · intro k hk hnone
        cases k with
        | zero => simp
        | succ k =>
          have := ihkeep k (by simpa using hk)
            (fun rec hrec => by
              have := hnone rec hrec
              omega)
          simpa using this

lemma injectLoop_count {p : Rat} (i : Nat) (ws : List (List Char)) (g : gen.G)
    (hws : ∀ w ∈ ws, w ≠ [] ∧ noWs w = true) :
    (∀ w' ∈ (injectLoop gen (defaultInjector p) i ws g).1, noWs w' = true) ∧
    (injectLoop gen (defaultInjector p) i ws g).1.countP
        (fun w => !w.isEmpty)
      + (injectLoop gen (defaultInjector p) i ws g).2.1.countP
        (fun rec => decide (rec.error_type = ErrType.qualifier_omission))
      = ws.length := by
  induction ws generalizing i g with
  | nil => simp [injectLoop]
  | cons w ws ih =>
    have hw := hws w (by simp)
    have hws' : ∀ u ∈ ws, u ≠ [] ∧ noWs u = true :=
      fun u hu => hws u (by simp [hu])
    by_cases hp : (gen.randFloat g).1 < (defaultInjector p).error_probability
    · rcases hag : applyRandomError gen (defaultInjector p) w
        (gen.randFloat g).2 with ⟨o, g2⟩
      cases o with
      | some e =>
        have hres : injectLoop gen (defaultInjector p) i (w :: ws) g =
            (e.new_word :: (injectLoop gen (defaultInjector p) (i + 1) ws g2).1,
             ⟨i, e.original, e.new_word, e.error_type⟩ ::
               (injectLoop gen (defaultInjector p) (i + 1) ws g2).2.1,
             (injectLoop gen (defaultInjector p) (i + 1) ws g2).2.2) := by
          simp only [injectLoop]
          rw [if_pos hp, hag]
        obtain ⟨hnw, hiff⟩ := applyErr_default_newWord gen hw.2 hag
        obtain ⟨ihws, ihcnt⟩ := ih (i + 1) g2 hws'
        rw [hres]
        constructor
        · intro w' hw'
          rcases List.mem_cons.1 hw' with hw' | hw'
          · subst hw'; exact hnw
          · exact ihws w' hw'
        · by_cases hty : e.error_type = ErrType.qualifier_omission
          · have hnil : e.new_word = [] := hiff.1 hty
            simp only [List.countP_cons, List.length_cons, hnil, hty]
            simp
            omega
          · have hnil : e.new_word ≠ [] := fun hn => hty (hiff.2 hn)
            have hwrd : (!e.new_word.isEmpty) = true := by
              simp [List.isEmpty_iff, hnil]
            have hrec : decide (e.error_type = ErrType.qualifier_omission)
                = false := by simp [hty]
            simp only [List.countP_cons, List.length_cons, hwrd, hrec]
            simp
            omega
      | none =>
        have hres : injectLoop gen (defaultInjector p) i (w :: ws) g =
            (w :: (injectLoop gen (defaultInjector p) (i + 1) ws g2).1,
             (injectLoop gen (defaultInjector p) (i + 1) ws g2).2.1,
             (injectLoop gen (defaultInjector p) (i + 1) ws g2).2.2) := by
          simp only [injectLoop]
          rw [if_pos hp, hag]
        obtain ⟨ihws, ihcnt⟩ := ih (i + 1) g2 hws'
        rw [hres]
        constructor
        · intro w' hw'
          rcases List.mem_cons.1 hw' with hw' | hw'
          · subst hw'; exact hw.2
          · exact ihws w' hw'
        · have hwrd : (!w.isEmpty) = true := by
            simp [List.isEmpty_iff, hw.1]
          simp only [List.countP_cons, List.length_cons, hwrd]
          simp
          omega
    · have hres : injectLoop gen (defaultInjector p) i (w :: ws) g =
          (w :: (injectLoop gen (defaultInjector p) (i + 1) ws
              (gen.randFloat g).2).1,
           (injectLoop gen (defaultInjector p) (i + 1) ws
              (gen.randFloat g).2).2.1,
           (injectLoop gen (defaultInjector p) (i + 1) ws
              (gen.randFloat g).2).2.2) := by
        simp only [injectLoop]
        rw [if_neg hp]
      obtain ⟨ihws, ihcnt⟩ := ih (i + 1) (gen.randFloat g).2 hws'
      rw [hres]
      constructor
      · intro w' hw'
        rcases List.mem_cons.1 hw' with hw' | hw'
        · subst hw'; exact hw.2
        · exact ihws w' hw'
      · have hwrd : (!w.isEmpty) = true := by
          simp [List.isEmpty_iff, hw.1]
        simp only [List.countP_cons, List.length_cons, hwrd]
        simp
        omega

lemma injectLoop_zero_prob (i : Nat) (ws : List (List Char)) (g : gen.G)
    (h : inj.error_probability ≤ 0) :
    (injectLoop gen inj i ws g).1 = ws ∧
    (injectLoop gen inj i ws g).2.1 = [] := by
  induction ws generalizing i g with
  | nil => simp [injectLoop]
  | cons w ws ih =>
    have hp : ¬ (gen.randFloat g).1 < inj.error_probability :=
      not_lt.2 (le_trans h (gen.float_nonneg g))
    have hres : injectLoop gen inj i (w :: ws) g =
        (w :: (injectLoop gen inj (i + 1) ws (gen.randFloat g).2).1,
         (injectLoop gen inj (i + 1) ws (gen.randFloat g).2).2.1,
         (injectLoop gen inj (i + 1) ws (gen.randFloat g).2).2.2) := by
      simp only [injectLoop]
      rw [if_neg hp]
    obtain ⟨ih1, ih2⟩ := ih (i + 1) (gen.randFloat g).2
    rw [hres]
    exact ⟨by simp [ih1], by simp [ih2]⟩

/-! ### Lemmas about the conversation loop -/

lemma convLoop_spec (i : Nat) (ts : List Turn) (g : gen.G) :
    (convLoop gen inj i ts g).1.map Turn.speaker = ts.map Turn.speaker ∧
    (convLoop gen inj i ts g).1.length = ts.length ∧
    (∀ rec ∈ (convLoop gen inj i ts g).2.1,
      i ≤ rec.turn_index ∧ rec.turn_index < i + ts.length) := by
  induction ts generalizing i g with
  | nil => simp [convLoop]
  | cons t ts ih =>
    obtain ⟨ih1, ih2, ih3⟩ :=
      ih (i + 1) (injectErrors gen inj t.text none g).2.2
    refine ⟨by simp [convLoop, ih1], by simp [convLoop, ih2], ?_⟩
    intro rec hrec
    simp only [convLoop] at hrec
    rcases List.mem_append.1 hrec with hrec | hrec
    · obtain ⟨r, -, hr⟩ := List.mem_map.1 hrec
      subst hr
      simp only [List.length_cons]
      omega
    · obtain ⟨h1, h2⟩ := ih3 rec hrec
      simp only [List.length_cons]
      omega

/-! ### Claim theorems -/

/-- C1: for every text `T` and every seed `S`, two calls of
`inject_errors(T, S)` — whatever generator state each call starts from —
return identical results (same modified text, same error records, same
final generator state), because a provided seed deterministically
re-initializes the generator at the start of the call. -/
theorem claim_C1_seeded_reproducibility (t : List Char) (s : Int)
    (g1 g2 : gen.G) :
    injectErrors gen inj t (some s) g1 = injectErrors gen inj t (some s) g2 :=
  rfl

/-- C2 (amended): with `error_probability = 0` no token is ever altered and
no error record is produced, but the returned text is the whitespace
normalization of the input (tokens rejoined with single spaces), not the
input character for character. -/
theorem claim_C2_amended (t : List Char) (seed : Option Int) (g : gen.G) :
    (injectErrors gen (defaultInjector 0) t seed g).1 =
      joinWords (splitWs t) ∧
    (injectErrors gen (defaultInjector 0) t seed g).2.1 = [] := by
  have h := injectLoop_zero_prob gen (defaultInjector 0) 0 (splitWs t)
    (match seed with | some s => gen.seedFn s | none => g)
    (by simp [defaultInjector])
  cases seed with
  | none => exact ⟨by show joinWords _ = _; rw [h.1], h.2⟩
  | some s => exact ⟨by show joinWords _ = _; rw [h.1], h.2⟩

/-- C7: conversation injection returns as many turns as it was given, with
the speaker labels unchanged and in the same order, and every error
record's `turn_index` lies below the number of turns. -/
theorem claim_C7_turn_isolation (turns : List Turn) (seed : Option Int)
    (g : gen.G) :
    (injectConversation gen inj turns seed g).1.map Turn.speaker =
      turns.map Turn.speaker ∧
    (injectConversation gen inj turns seed g).1.length = turns.length ∧
    (∀ rec ∈ (injectConversation gen inj turns seed g).2.1,
      rec.turn_index < turns.length) := by
  have h := convLoop_spec gen inj 0 turns
    (match seed with | some s => gen.seedFn s | none => g)
  refine ⟨h.1, h.2.1, ?_⟩
  intro rec hrec
  have := (h.2.2 rec hrec).2
  omega

/-- C8: the error records of one `inject_errors` call are strictly
increasing in `position` (no token index occurs twice), and each record's
`original` field is the verbatim whitespace-delimited token of the input
at that position. -/
theorem claim_C8_records_sorted_verbatim (t : List Char) (seed : Option Int)
    (g : gen.G) :
    List.Pairwise (fun a b => a.position < b.position)
      (injectErrors gen inj t seed g).2.1 ∧
    (∀ rec ∈ (injectErrors gen inj t seed g).2.1,
      rec.position < (splitWs t).length ∧
      (splitWs t).getD rec.position [] = rec.original) := by
  have h := injectLoop_spec gen inj 0 (splitWs t)
    (match seed with | some s => gen.seedFn s | none => g)
  refine ⟨h.2.2.1, ?_⟩
  intro rec hrec
  obtain ⟨k, hk, hpos, ho, -, -⟩ := h.2.1 rec hrec
  have hkpos : rec.position = k := by omega
  rw [hkpos]
  exact ⟨hk, ho⟩

/-- C9: a token whose cleaned form is the empty string (for example a token
made only of punctuation) matches no rule table, so the per-token
selection returns no error, and consequently no error record of any
`inject_errors` call has an original token that cleans to the empty
string. -/
theorem claim_C9_empty_clean_no_error (p : Rat) :
    (∀ (w : List Char) (g : gen.G), cleanWord w = [] →
      (applyRandomError gen (defaultInjector p) w g).1 = none) ∧
    (∀ (t : List Char) (seed : Option Int) (g : gen.G),
      ∀ rec ∈ (injectErrors gen (defaultInjector p) t seed g).2.1,
        cleanWord rec.original ≠ []) := by
  have hnone : ∀ (w : List Char) (g : gen.G), cleanWord w = [] →
      (applyRandomError gen (defaultInjector p) w g).1 = none := by
    intro w g hcw
    show (firstTry gen (defaultInjector p)
      (shuffleList gen Strategy.medical strategyList g).1 w (cleanWord w)
      (shuffleList gen Strategy.medical strategyList g).2).1 = none
    rw [hcw]
    refine firstTry_isnone_of_all gen (defaultInjector p) ?_
    intro s g1
    cases s with
    | medical =>
      simp [runStrategy, tryMedicalSubstitution, defaultInjector,
        medicalTable_no_empty_key]
    | number =>
      simp [runStrategy, tryNumberSubstitution, defaultInjector,
        numberTable_no_empty_key]
    | qualifier =>
      simp [runStrategy, tryQualifierOmission, defaultInjector,
        qualifierList_no_empty_key]
    | temporal =>
      simp [runStrategy, tryTemporalConfusion, defaultInjector,
        temporalTable_no_empty_key]
  refine ⟨hnone, ?_⟩
  intro t seed g
  have h := injectLoop_spec gen (defaultInjector p) 0 (splitWs t)
    (match seed with | some s => gen.seedFn s | none => g)
  intro rec hrec hcw
  obtain ⟨k, hk, -, ho, -, g1, g2, hap⟩ := h.2.1 rec hrec
  have : cleanWord ((splitWs t).getD k []) = [] := by rw [ho]; exact hcw
  have hn := hnone _ g1 this
  rw [hap] at hn
  simp at hn

lemma injectErrors_none_count (p : Rat) (t : List Char) (g0 : gen.G) :
    (splitWs (injectErrors gen (defaultInjector p) t none g0).1).length
      + (injectErrors gen (defaultInjector p) t none g0).2.1.countP
          (fun rec => decide (rec.error_type = ErrType.qualifier_omission))
      = (splitWs t).length := by
  have h := injectLoop_count gen 0 (splitWs t) g0 (splitWs_sound t) (p := p)
  have hjw : splitWs (injectErrors gen (defaultInjector p) t none g0).1
      = (injectLoop gen (defaultInjector p) 0 (splitWs t) g0).1.filter
          (fun w => !w.isEmpty) :=
    splitWs_joinWords h.1
  rw [hjw, ← List.countP_eq_length_filter]
  exact h.2

/-- C3 (amended): splitting the returned text on whitespace yields exactly
as many tokens as the input minus the number of `qualifier_omission`
records: each omitted token disappears from the rejoined output as a
token.  (The join itself replaces the omitted token by the empty string,
leaving a doubled or leading/trailing space rather than a single-space
rejoining; see the counterexample.) -/
theorem claim_C3_amended (p : Rat) (t : List Char) (seed : Option Int)
    (g : gen.G) :
    (splitWs (injectErrors gen (defaultInjector p) t seed g).1).length
      + (injectErrors gen (defaultInjector p) t seed g).2.1.countP
          (fun rec => decide (rec.error_type = ErrType.qualifier_omission))
      = (splitWs t).length := by
  cases seed with
  | none => exact injectErrors_none_count gen p t g
  | some s => exact injectErrors_none_count gen p t (gen.seedFn s)

/-- C4 (amended): every produced substitution error's modified token is the
chosen replacement word (capitalized when the original token starts
uppercase, except for number substitutions) followed by all
non-alphanumeric characters of the original token in order — not merely
its trailing non-alphanumeric suffix (see the counterexample, where an
interior hyphen is moved to the end). -/
theorem claim_C4_amended (p : Rat) (w : List Char) (g : gen.G) (e : ErrInfo)
    (g' : gen.G)
    (h : applyRandomError gen (defaultInjector p) w g = (some e, g'))
    (hty : e.error_type ≠ ErrType.qualifier_omission) :
    ∃ repl, repl ∈ replCandidates (defaultInjector p) e.error_type
        (cleanWord w) ∧
      e.new_word =
        (if e.error_type = ErrType.number_substitution then repl
         else if isUpperFirst w then capitalize repl else repl)
          ++ allPunc w := by
  obtain ⟨repl, hmem, -, -, -, -, hnew⟩ := (applyErr_default_spec gen h).2 hty
  exact ⟨repl, hmem, hnew⟩

/-- C5 (amended): the per-token selection runs the strategies in the
per-call shuffled order and the first strategy that returns an error
supplies the token's error, the remaining ones being skipped; a strategy
other than qualifier omission returns an error exactly when its table
contains the cleaned token, while qualifier omission additionally
requires its fresh 0.3-probability draw to succeed, falling through to
the next strategy otherwise. -/
theorem claim_C5_amended (w : List Char) (g : gen.G) :
    (∀ (e : ErrInfo) (g' : gen.G),
      applyRandomError gen inj w g = (some e, g') →
      ∃ pre s post g1,
        (shuffleList gen Strategy.medical strategyList g).1 =
          pre ++ s :: post ∧
        noneThrough gen inj w (cleanWord w) pre
          (shuffleList gen Strategy.medical strategyList g).2 g1 ∧
        runStrategy gen inj s w (cleanWord w) g1 = (some e, g')) ∧
    (∀ g' : gen.G, applyRandomError gen inj w g = (none, g') →
      noneThrough gen inj w (cleanWord w)
        (shuffleList gen Strategy.medical strategyList g).1
        (shuffleList gen Strategy.medical strategyList g).2 g') ∧
    (∀ (s : Strategy) (g1 : gen.G), s ≠ Strategy.qualifier →
      ((runStrategy gen inj s w (cleanWord w) g1).1.isSome ↔
        tableHas inj s (cleanWord w) = true)) ∧
    (∀ g1 : gen.G,
      ((runStrategy gen inj Strategy.qualifier w (cleanWord w) g1).1.isSome ↔
        (tableHas inj Strategy.qualifier (cleanWord w) = true ∧
          (gen.randFloat g1).1 < mkRat 3 10))) := by
  refine ⟨fun e g' h => applyErr_split gen inj h,
    fun g' h => applyErr_none_through gen inj h, ?_, ?_⟩
  · intro s g1 hs
    cases s with
    | medical =>
      cases halk : alookup inj.medical_substitutions (cleanWord w) with
      | none =>
        simp [runStrategy, tryMedicalSubstitution, tableHas, halk]
      | some subs =>
        simp [runStrategy, tryMedicalSubstitution, tableHas, halk]
    | number =>
      cases halk : alookup inj.number_substitutions (cleanWord w) with
      | none =>
        simp [runStrategy, tryNumberSubstitution, tableHas, halk]
      | some repl =>
        simp [runStrategy, tryNumberSubstitution, tableHas, halk]
    | qualifier => exact absurd rfl hs
    | temporal =>
      cases halk : alookup inj.temporal_confusions (cleanWord w) with
      | none =>
        simp [runStrategy, tryTemporalConfusion, tableHas, halk]
      | some repl =>
        simp [runStrategy, tryTemporalConfusion, tableHas, halk]
  · intro g1
    by_cases hmem : cleanWord w ∈ inj.omittable_qualifiers
    · by_cases hroll : (gen.randFloat g1).1 < mkRat 3 10
      · simp [runStrategy, tryQualifierOmission, tableHas, hmem, hroll]
      · simp [runStrategy, tryQualifierOmission, tableHas, hmem, hroll]
    · simp [runStrategy, tryQualifierOmission, tableHas, hmem]

/-- C6: for every produced medical or temporal substitution whose original
token starts with an uppercase character, the replacement token also
starts with an uppercase character. -/
theorem claim_C6_capitalization (p : Rat) (w : List Char) (g : gen.G)
    (e : ErrInfo) (g' : gen.G)
    (h : applyRandomError gen (defaultInjector p) w g = (some e, g'))
    (hty : e.error_type = ErrType.medical_substitution ∨
      e.error_type = ErrType.temporal_confusion)
    (hup : isUpperFirst w = true) :
    isUpperFirst e.new_word = true := by
  have hne : e.error_type ≠ ErrType.qualifier_omission := by
    rcases hty with h' | h' <;> simp [h']
  obtain ⟨repl, -, hrne, -, -, hcap, hnew⟩ :=
    (applyErr_default_spec gen h).2 hne
  have hnum : e.error_type ≠ ErrType.number_substitution := by
    rcases hty with h' | h' <;> simp [h']
  rw [hnew, if_neg hnum, if_pos hup,
    isUpperFirst_append (capitalize_ne_nil hrne)]
  exact hcap hty

lemma injectErrors_none_rejoin (p : Rat) (t : List Char) (g0 : gen.G)
    (hno : ∀ rec ∈ (injectErrors gen (defaultInjector p) t none g0).2.1,
      rec.error_type ≠ ErrType.qualifier_omission) :
    ∃ mw : List (List Char),
      (injectErrors gen (defaultInjector p) t none g0).1 = joinWords mw ∧
      splitWs (injectErrors gen (defaultInjector p) t none g0).1 = mw ∧
      mw.length = (splitWs t).length ∧
      (∀ k, k < mw.length →
        mw.getD k [] =
          (match (injectErrors gen (defaultInjector p) t none g0).2.1.find?
              (fun rec => rec.position = k) with
           | some rec => rec.modified
           | none => (splitWs t).getD k [])) := by
  have hspec := injectLoop_spec gen (defaultInjector p) 0 (splitWs t) g0
  have hcnt := injectLoop_count gen 0 (splitWs t) g0 (splitWs_sound t) (p := p)
  refine ⟨(injectLoop gen (defaultInjector p) 0 (splitWs t) g0).1, rfl, ?_,
    hspec.1, ?_⟩
  · show splitWs (joinWords _) = _
    rw [splitWs_joinWords hcnt.1]
    refine List.filter_eq_self.2 ?_
    intro w' hw'
    obtain ⟨k, hk, hget⟩ := List.mem_iff_getElem.1 hw'
    have hgetD : (injectLoop gen (defaultInjector p) 0
        (splitWs t) g0).1.getD k [] = w' := by
      rw [List.getD_eq_getElem _ _ hk, hget]
    have hklen : k < (splitWs t).length := by
      rw [← hspec.1]; exact hk
    have htok := splitWs_sound t ((splitWs t).getD k [])
      (by rw [List.getD_eq_getElem _ _ hklen]; exact List.getElem_mem hklen)
    by_cases hex : ∃ rec ∈ (injectLoop gen (defaultInjector p) 0
        (splitWs t) g0).2.1, rec.position = k
    · obtain ⟨rec, hrec, hpos⟩ := hex
      obtain ⟨k', hk', hpos', ho, hm, g1, g2, hap⟩ := hspec.2.1 rec hrec
      have hk'k : k' = k := by omega
      subst hk'k
      have htyne := hno rec hrec
      have hnw := applyErr_default_newWord gen htok.2 hap
      have hmod : rec.modified ≠ [] := by
        intro hmz
        exact htyne (hnw.2.2 (by simpa using hmz))
      rw [hgetD] at hm
      subst hm
      simpa [List.isEmpty_iff] using hmod
    · have hkeep := hspec.2.2.2 k hklen
        (fun rec hrec => by
          intro hcontra
          exact hex ⟨rec, hrec, by omega⟩)
      rw [hgetD] at hkeep
      subst hkeep
      simpa [List.isEmpty_iff] using htok.1
  · intro k hk
    have hklen : k < (splitWs t).length := by
      rw [← hspec.1]; exact hk
    cases hf : (injectErrors gen (defaultInjector p) t none g0).2.1.find?
        (fun rec => rec.position = k) with
    | some rec =>
      have hposk : rec.position = k := by
        have := List.find?_some hf
        simpa using this
      have hrecmem : rec ∈ (injectErrors gen
          (defaultInjector p) t none g0).2.1 :=
        List.mem_of_find?_eq_some hf
      obtain ⟨k', hk', hpos', -, hm, -, -, -⟩ := hspec.2.1 rec hrecmem
      have hk'k : k' = k := by omega
      subst hk'k
      exact hm
    | none =>
      have hnof := List.find?_eq_none.1 hf
      have hkeep := hspec.2.2.2 k hklen
        (fun rec hrec => by
          have := hnof rec hrec
          intro hcontra
          exact this (by simpa using (by omega : rec.position = k)))
      exact hkeep

/-- C10: the returned text is always the whitespace-split tokens of the
input, with each recorded error's token replaced by its recorded
`modified` value, rejoined with single spaces — in particular whitespace
runs collapse and leading/trailing whitespace is stripped even when no
error is injected; when no `qualifier_omission` record was produced,
splitting the output recovers exactly that token list. -/
theorem claim_C10_rejoin_normalized (p : Rat) (t : List Char)
    (seed : Option Int) (g : gen.G)
    (hno : ∀ rec ∈ (injectErrors gen (defaultInjector p) t seed g).2.1,
      rec.error_type ≠ ErrType.qualifier_omission) :
    ∃ mw : List (List Char),
      (injectErrors gen (defaultInjector p) t seed g).1 = joinWords mw ∧
      splitWs (injectErrors gen (defaultInjector p) t seed g).1 = mw ∧
      mw.length = (splitWs t).length ∧
      (∀ k, k < mw.length →
        mw.getD k [] =
          (match (injectErrors gen (defaultInjector p) t seed g).2.1.find?
              (fun rec => rec.position = k) with
           | some rec => rec.modified
           | none => (splitWs t).getD k [])) := by
  cases seed with
  | none => exact injectErrors_none_rejoin gen p t g hno
  | some s => exact injectErrors_none_rejoin gen p t (gen.seedFn s) hno

/-! ### Counterexamples and witnesses on the scripted generator -/

/-- C2 counterexample: with `error_probability = 0` and seed `0`, the input
text `"a  b"` (two spaces) comes back as `"a b"`: no error is injected but
the text is not returned character for character, refuting
`modifiedText == T` for all `T`. -/
theorem claim_C2_counterexample :
    (injectErrors scriptGen (defaultInjector 0) ("a  b".toList)
        (some 0) []).1 = "a b".toList ∧
    (injectErrors scriptGen (defaultInjector 0) ("a  b".toList)
        (some 0) []).2.1 = [] ∧
    ("a b".toList ≠ "a  b".toList) := by
  have hsplit : splitWs ("a  b".toList) = ["a".toList, "b".toList] := by
    simp [splitWs]
  refine ⟨?_, ?_, by decide⟩
  · show joinWords (injectLoop scriptGen (defaultInjector 0) 0
      (splitWs ("a  b".toList)) (scriptGen.seedFn 0)).1 = _
    rw [hsplit]
    rfl
  · show (injectLoop scriptGen (defaultInjector 0) 0
      (splitWs ("a  b".toList)) (scriptGen.seedFn 0)).2.1 = _
    rw [hsplit]
    rfl

/-- C3 counterexample: a run that omits the qualifier `"not"` from
`"do not eat"` returns `"do  eat"` — the omitted token is replaced by the
empty string before the single-space join, leaving a double space — and
not the single-spaced rejoining `"do eat"` of the remaining tokens that
the claim describes. -/
theorem claim_C3_counterexample :
    (injectErrors scriptGen (defaultInjector 1) ("do not eat".toList) none
        (List.replicate 13 0)).1 = "do  eat".toList ∧
    (injectErrors scriptGen (defaultInjector 1) ("do not eat".toList) none
        (List.replicate 13 0)).2.1
      = [⟨1, "not".toList, [], ErrType.qualifier_omission⟩] ∧
    ("do  eat".toList ≠ "do eat".toList) := by
  have hsplit : splitWs ("do not eat".toList)
      = ["do".toList, "not".toList, "eat".toList] := by
    simp [splitWs]
  refine ⟨?_, ?_, by decide⟩
  · show joinWords (injectLoop scriptGen (defaultInjector 1) 0
      (splitWs ("do not eat".toList)) (List.replicate 13 0)).1 = _
    rw [hsplit]
    rfl
  · show (injectLoop scriptGen (defaultInjector 1) 0
      (splitWs ("do not eat".toList)) (List.replicate 13 0)).2.1 = _
    rw [hsplit]
    rfl

/-- C4 counterexample: the token `"do-se"` (interior hyphen, no trailing
punctuation) cleans to `"dose"` and is substituted to `"does-"`: the
source appends every non-alphanumeric character of the token, so the
hyphen moves to the end, while the claim demands the replacement followed
by the (empty) trailing suffix only — `"does"` or `"dosage"`. -/
theorem claim_C4_counterexample :
    (applyRandomError scriptGen (defaultInjector 1) ("do-se".toList)
        [0, 0, 0, 0]).1
      = some ⟨"do-se".toList, "does-".toList,
          ErrType.medical_substitution⟩ ∧
    trailingPunc ("do-se".toList) = [] ∧
    ("does-".toList ≠ "does".toList ++ trailingPunc ("do-se".toList)) ∧
    ("does-".toList ≠ "dosage".toList ++ trailingPunc ("do-se".toList)) := by
  refine ⟨rfl, by decide, by decide, by decide⟩

/-- C4 witness for the amended claim: the run substituting `"Dose."` by
`"Does."` exhibits a replacement drawn from the medical table with
capitalization reapplied and the token's non-alphanumeric characters
appended. -/
theorem claim_C4_witness :
    ∃ repl, repl ∈ replCandidates (defaultInjector 1)
        ErrType.medical_substitution (cleanWord ("Dose.".toList)) ∧
      "Does.".toList =
        (if ErrType.medical_substitution = ErrType.number_substitution
          then repl
         else if isUpperFirst ("Dose.".toList) then capitalize repl
         else repl) ++ allPunc ("Dose.".toList) := by
  exact claim_C4_amended scriptGen 1 ("Dose.".toList) [0, 0, 0, 0]
    ⟨"Dose.".toList, "Does.".toList, ErrType.medical_substitution⟩
    ([] : List Nat) rfl (by decide)

/-- C5 counterexample: for the token `"not"` the qualifier table contains
the cleaned token, yet with a failed 0.3 roll the call returns no error at
all, refuting "the first strategy whose table contains the cleaned token
yields the error for that token". -/
theorem claim_C5_counterexample :
    (applyRandomError scriptGen (defaultInjector 1) ("not".toList)
        [0, 0, 0, 999]).1 = none ∧
    tableHas (defaultInjector 1) Strategy.qualifier
        (cleanWord ("not".toList)) = true := by
  exact ⟨rfl, by decide⟩

/-- C5 witness for the amended claim: in the run that omits `"not"`, the
shuffled strategy order splits into a prefix of strategies that returned
no error followed by the strategy that produced the omission. -/
theorem claim_C5_witness :
    ∃ pre s post g1,
      (shuffleList scriptGen Strategy.medical strategyList
        ([0, 0, 0, 0] : List Nat)).1 = pre ++ s :: post ∧
      noneThrough scriptGen (defaultInjector 1) ("not".toList)
        (cleanWord ("not".toList)) pre
        (shuffleList scriptGen Strategy.medical strategyList
          ([0, 0, 0, 0] : List Nat)).2 g1 ∧
      runStrategy scriptGen (defaultInjector 1) s ("not".toList)
        (cleanWord ("not".toList)) g1
        = (some ⟨"not".toList, [], ErrType.qualifier_omission⟩,
            ([] : List Nat)) := by
  exact (claim_C5_amended scriptGen (defaultInjector 1) ("not".toList)
    [0, 0, 0, 0]).1
    ⟨"not".toList, [], ErrType.qualifier_omission⟩ ([] : List Nat) rfl

/-- C6 witness: the substitution of `"Dose."` by `"Does."` preserves the
leading uppercase letter. -/
theorem claim_C6_witness : isUpperFirst ("Does.".toList) = true := by
  exact claim_C6_capitalization scriptGen 1 ("Dose.".toList) [0, 0, 0, 0]
    ⟨"Dose.".toList, "Does.".toList, ErrType.medical_substitution⟩
    ([] : List Nat) rfl (Or.inl rfl) (by decide)

/-- C9 witness: the punctuation-only token `"..."` cleans to the empty
string and the per-token selection produces no error on it. -/
theorem claim_C9_witness :
    cleanWord ("...".toList) = [] ∧
    (applyRandomError scriptGen (defaultInjector 1) ("...".toList)
      [0, 0, 0]).1 = none := by
  refine ⟨by decide, ?_⟩
  exact (claim_C9_empty_clean_no_error scriptGen 1).1 ("...".toList)
    [0, 0, 0] (by decide)

/-- C10 witness: an error-free run on `"a  b"` (two spaces) satisfies the
rejoining description — the output is the single-space join of the input
tokens. -/
theorem claim_C10_witness :
    ∃ mw : List (List Char),
      (injectErrors scriptGen (defaultInjector 0) ("a  b".toList)
        none []).1 = joinWords mw ∧
      splitWs (injectErrors scriptGen (defaultInjector 0) ("a  b".toList)
        none []).1 = mw ∧
      mw.length = (splitWs ("a  b".toList)).length ∧
      (∀ k, k < mw.length →
        mw.getD k [] =
          (match (injectErrors scriptGen (defaultInjector 0)
              ("a  b".toList) none []).2.1.find?
              (fun rec => rec.position = k) with
           | some rec => rec.modified
           | none => (splitWs ("a  b".toList)).getD k [])) := by
  refine claim_C10_rejoin_normalized scriptGen 0 ("a  b".toList) none [] ?_
  have hrecs : (injectErrors scriptGen (defaultInjector 0) ("a  b".toList)
      none ([] : List Nat)).2.1 = [] := by
    show (injectLoop scriptGen (defaultInjector 0) 0
      (splitWs ("a  b".toList)) ([] : List Nat)).2.1 = []
    rw [(by simp [splitWs] :
      splitWs ("a  b".toList) = ["a".toList, "b".toList])]
    rfl
  intro rec hrec
  rw [hrecs] at hrec
  exact absurd hrec (List.not_mem_nil _)

end MedTrans
